import Mathlib

/-!
Shallow embedding of the localQA vector collection store
(`src/vector_store.py`, with the name-decoding fallback from `src/app.py`),
together with theorems settling the specification claims about it.

Modelling conventions:
* machine floats become exact rationals (`ℚ`); vectors are `List ℚ`;
* the FAISS `IndexFlatL2` is modelled by the list of stored vectors in
  insertion order, and its `search` by sorting `(index, squared L2 distance)`
  pairs by distance (ties by insertion index, the order FAISS reports for an
  exact flat index) and padding with `-1` when fewer vectors exist;
* Python dicts (insertion ordered) become association lists;
* the on-disk collection directory becomes a `DiskState` record of the three
  optional files; whether a disk write succeeds is an explicit argument, and
  a raised exception is an explicit boolean result.
-/

namespace LocalQA

/-- Adjacency metadata attached to a chunk at ingestion time
(the `metadata` sub-dict of an entry of `metadata_list`). -/
structure ChunkMeta where
  file_name : String
  file_type : String
  prev_chunks : List Int
  next_chunks : List Int
deriving DecidableEq

instance : Inhabited ChunkMeta := ⟨⟨"", "", [], []⟩⟩

/-- One entry of `VectorStore.metadata_list`: the `{"text": ..., "metadata": ...}`
record appended by `add_documents`. -/
structure MetaEntry where
  text : String
  metadata : ChunkMeta
deriving DecidableEq

instance : Inhabited MetaEntry := ⟨⟨"", default⟩⟩

/-- In-memory state of a `VectorStore` object: collection name, the vectors
held by the FAISS flat index (insertion order), and the parallel metadata
list. -/
structure VectorStore where
  collection_name : String
  xb : List (List ℚ)
  metadata_list : List MetaEntry
deriving DecidableEq

/-- An input document for `add_documents`: already-embedded chunk. -/
structure Doc where
  text : String
  embedding : List ℚ
  metadata : ChunkMeta
deriving DecidableEq

/-- The metadata record `add_documents` builds from a document. -/
def docEntry (d : Doc) : MetaEntry := { text := d.text, metadata := d.metadata }

/-- Model of `VectorStore.add_documents`: appends the embeddings to the index and the
metadata records to `metadata_list`, then calls `_save_index`.  `saveOk`
models whether the disk write in `_save_index` succeeds; the boolean result
models whether the call raised (the `except` clause logs and re-raises, so
the in-memory mutation is kept either way). -/
def add_documents (st : VectorStore) (documents : List Doc) (saveOk : Bool) :
    VectorStore × Bool :=
  let st2 : VectorStore :=
    { st with
      xb := st.xb ++ documents.map (fun d => d.embedding)
      metadata_list := st.metadata_list ++ documents.map docEntry }
  (st2, !saveOk)

/-- A sequence of successful `add_documents` calls, one per batch. -/
def addMany (init : VectorStore) (batches : List (List Doc)) : VectorStore :=
  batches.foldl (fun s b => (add_documents s b true).1) init

/-- Contents of a collection's directory on disk: `index.faiss`,
`metadata.pkl` and `name.txt`, each possibly absent. -/
structure DiskState where
  indexFile : Option (List (List ℚ))
  metadataFile : Option (List MetaEntry)
  nameFile : Option String
deriving DecidableEq

/-- Model of `VectorStore.__init__` for collection `name` on disk state `d`:
writes `name.txt` only if absent; then, if BOTH the index file and the
metadata file exist, `_load_index` reads them (no consistency check);
otherwise `_create_index` builds an empty index and empty metadata list and
`_save_index` immediately writes both files.  Returns the resulting disk
state and the constructed in-memory object. -/
def vectorStoreInit (name : String) (d : DiskState) : DiskState × VectorStore :=
  let d1 : DiskState :=
    { d with nameFile := match d.nameFile with | some s => some s | none => some name }
  match d1.indexFile, d1.metadataFile with
  | some xb, some ml =>
      (d1, { collection_name := name, xb := xb, metadata_list := ml })
  | _, _ =>
      ({ d1 with indexFile := some [], metadataFile := some [] },
       { collection_name := name, xb := [], metadata_list := [] })

/-- The disk state after a `VectorStore.__init__` call. -/
def openDisk (name : String) (d : DiskState) : DiskState :=
  (vectorStoreInit name d).1

/-- Model of `VectorStore.delete_collection`: removes the collection directory with
`shutil.rmtree` (all three files gone); the in-memory object is not
touched. -/
def delete_collection (st : VectorStore) (d : DiskState) :
    VectorStore × DiskState :=
  (st, { indexFile := none, metadataFile := none, nameFile := none })

/-- A result dict returned by `VectorStore.search`. -/
structure SearchResult where
  text : String
  metadata : ChunkMeta
  distance : ℚ
deriving DecidableEq

/-- Squared L2 distance between a query and a stored vector, as FAISS's
`IndexFlatL2` computes for vectors of the index's dimension. -/
def sqDist (q v : List ℚ) : ℚ :=
  ((q.zip v).map (fun p => (p.1 - p.2) ^ 2)).sum

/-- Order in which an exact flat L2 index reports neighbors: increasing
squared distance, ties broken by insertion position. -/
def searchOrder (a b : ℕ × ℚ) : Prop :=
  a.2 < b.2 ∨ (a.2 = b.2 ∧ a.1 ≤ b.1)

instance : DecidableRel searchOrder := fun a b =>
  inferInstanceAs (Decidable (a.2 < b.2 ∨ (a.2 = b.2 ∧ a.1 ≤ b.1)))

/-- Distance value FAISS pads with when fewer than `m` vectors are stored
(`FLT_MAX`); never read by `VectorStore.search`. -/
def faissPadDistance : ℚ := 34028234663852886 * 10 ^ 22

/-- The up-to-`m` `(insertion position, squared distance)` pairs an exact
flat search reports, in report order. -/
def faissChosen (xb : List (List ℚ)) (q : List ℚ) (m : Nat) : List (ℕ × ℚ) :=
  (List.insertionSort searchOrder ((xb.map (sqDist q)).enum)).take m

/-- Model of `faiss.IndexFlatL2.search` for one query: the distances and labels of
the `m` nearest stored vectors, padded with `-1` labels when fewer than `m`
vectors exist. -/
def faissSearch (xb : List (List ℚ)) (q : List ℚ) (m : Nat) :
    List ℚ × List Int :=
  let chosen := faissChosen xb q m
  (chosen.map Prod.snd ++ List.replicate (m - chosen.length) faissPadDistance,
   chosen.map (fun p => (p.1 : Int)) ++ List.replicate (m - chosen.length) (-1))

/-- The `distances[0]` row produced at the start of `VectorStore.search`
(which over-fetches `n_results * 2`). -/
def searchDistances (st : VectorStore) (q : List ℚ) (n_results : Nat) : List ℚ :=
  (faissSearch st.xb q (n_results * 2)).1

/-- The `indices[0]` row produced at the start of `VectorStore.search`. -/
def searchIndices (st : VectorStore) (q : List ℚ) (n_results : Nat) : List Int :=
  (faissSearch st.xb q (n_results * 2)).2

/-- The `initial_results` list of `VectorStore.search`: the first
`n_results` labels, dropping FAISS's invalid `-1` labels. -/
def searchInitial (st : VectorStore) (q : List ℚ) (n_results : Nat) : List Int :=
  ((searchIndices st q n_results).take n_results).filter (fun i => i ≠ -1)

/-- The result record `VectorStore.search` builds for index `idx`: the
chunk's text and metadata, and the distance found at the first position of
`idx` in the label row. -/
def searchEntry (st : VectorStore) (q : List ℚ) (n_results : Nat) (idx : Int) :
    SearchResult :=
  { text := (st.metadata_list.getD idx.toNat default).text
    metadata := (st.metadata_list.getD idx.toNat default).metadata
    distance := (searchDistances st q n_results).getD
      ((searchIndices st q n_results).indexOf idx) 0 }

/-- Model of `VectorStore._get_related_chunks`: for each in-range index, collects its
`prev_chunks`, `next_chunks` and the index itself.  The Python set is
modelled as a list; only membership in it is ever used. -/
def getRelatedChunks (ml : List MetaEntry) (chunk_indices : List Int) : List Int :=
  chunk_indices.foldl
    (fun acc idx =>
      if 0 ≤ idx ∧ idx < (ml.length : Int) then
        acc ++ (ml.getD idx.toNat default).metadata.prev_chunks
            ++ (ml.getD idx.toNat default).metadata.next_chunks ++ [idx]
      else acc)
    []

/-- Body of the first result loop of `VectorStore.search`: append the entry
for `idx` unless `idx` is already in `seen_indices`. -/
def searchStep (st : VectorStore) (q : List ℚ) (n_results : Nat)
    (acc : List SearchResult × List Int) (idx : Int) :
    List SearchResult × List Int :=
  if idx ∈ acc.2 then acc
  else (acc.1 ++ [searchEntry st q n_results idx], idx :: acc.2)

/-- Body of the second (related-chunk) loop of `VectorStore.search`: append
the entry for `idx` only if `idx` is unseen AND a member of
`initial_results`. -/
def searchRelatedStep (st : VectorStore) (q : List ℚ) (n_results : Nat)
    (initial : List Int) (acc : List SearchResult × List Int) (idx : Int) :
    List SearchResult × List Int :=
  if idx ∉ acc.2 ∧ idx ∈ initial then
    (acc.1 ++ [searchEntry st q n_results idx], idx :: acc.2)
  else acc

/-- Model of `VectorStore.search`: over-fetch `2 * n_results` nearest neighbors,
keep the first `n_results` valid labels, compute the related chunks, then
run both result loops. -/
def search (st : VectorStore) (q : List ℚ) (n_results : Nat) :
    List SearchResult :=
  let initial := searchInitial st q n_results
  let related := getRelatedChunks st.metadata_list initial
  let afterInitial := initial.foldl (searchStep st q n_results) ([], [])
  (related.foldl (searchRelatedStep st q n_results initial) afterInitial).1

/-- Per-file record of `file_stats` in `VectorStore.analyze_collection`. -/
structure FileStat where
  chunk_count : Nat
  total_length : Nat
  file_type : String
deriving DecidableEq

instance : Inhabited FileStat := ⟨⟨0, 0, ""⟩⟩

/-- The `if file_name not in file_stats:` initialisation step of the
analysis loop: registers a new file with zero counts (Python dicts keep
insertion order, modelled by appending). -/
def statsInsert (fs : List (String × FileStat)) (fname ftype : String) :
    List (String × FileStat) :=
  if fs.any (fun p => p.1 == fname) then fs
  else fs ++ [(fname, { chunk_count := 0, total_length := 0, file_type := ftype })]

/-- The `file_stats[file_name]["chunk_count"] += 1` /
`["total_length"] += chunk_length` step of the analysis loop. -/
def statsBump (fs : List (String × FileStat)) (fname : String) (clen : Nat) :
    List (String × FileStat) :=
  fs.map (fun p =>
    if p.1 == fname then
      (p.1, { p.2 with
              chunk_count := p.2.chunk_count + 1
              total_length := p.2.total_length + clen })
    else p)

/-- The lookup `file_stats[file_name]["chunk_count"]`, the value appended to
`file_chunk_counts` after each chunk. -/
def statCount (fs : List (String × FileStat)) (fname : String) : Nat :=
  match fs.find? (fun p => p.1 == fname) with
  | some p => p.2.chunk_count
  | none => 0

/-- One iteration of the `for doc in self.metadata_list:` loop of
`analyze_collection`, acting on `(file_stats, chunk_lengths,
file_chunk_counts)`.  Note the source appends to `file_chunk_counts` once
per CHUNK, recording the file's running count so far. -/
def analyzeStep (acc : List (String × FileStat) × List Nat × List Nat)
    (doc : MetaEntry) : List (String × FileStat) × List Nat × List Nat :=
  let fname := doc.metadata.file_name
  let clen := doc.text.length
  let fs2 := statsBump (statsInsert acc.1 fname doc.metadata.file_type) fname clen
  (fs2, acc.2.1 ++ [clen], acc.2.2 ++ [statCount fs2 fname])

/-- Update step of the file-type histogram of `analyze_collection`. -/
def typeBump (m : List (String × Nat)) (t : String) : List (String × Nat) :=
  if m.any (fun p => p.1 == t) then
    m.map (fun p => if p.1 == t then (p.1, p.2 + 1) else p)
  else m ++ [(t, 1)]

/-- One `min/max/mean/median/values` block of `distribution_stats`. -/
structure DistStats where
  min : Nat
  max : Nat
  mean : ℚ
  median : Nat
  values : List Nat
deriving DecidableEq

/-- The distribution block `analyze_collection` computes for a value list:
min/max/mean, and median defined as `sorted(vals)[len(vals) // 2]`, each 0
for an empty list. -/
def distStats (vals : List Nat) : DistStats :=
  { min := vals.min?.getD 0
    max := vals.max?.getD 0
    mean := if vals.length = 0 then 0 else (vals.sum : ℚ) / (vals.length : ℚ)
    median := (List.insertionSort (fun a b => a ≤ b) vals).getD (vals.length / 2) 0
    values := vals }

/-- The record returned by `analyze_collection`.  The two rounded float
averages of the source (`avg_chunks_per_file`, `avg_length_per_chunk`) are
kept as exact rationals; their 2-decimal display rounding is not
modelled. -/
structure AnalyzeResult where
  total_chunks : Nat
  total_files : Nat
  total_length : Nat
  avg_chunks_per_file : ℚ
  avg_length_per_chunk : ℚ
  file_types : List (String × Nat)
  file_stats : List (String × FileStat)
  chunk_lengths : DistStats
  file_chunk_counts : DistStats
deriving DecidableEq

/-- Model of `VectorStore.analyze_collection`. -/
def analyze_collection (st : VectorStore) : AnalyzeResult :=
  let acc := st.metadata_list.foldl analyzeStep ([], [], [])
  let file_stats := acc.1
  let chunk_lengths := acc.2.1
  let file_chunk_counts := acc.2.2
  let total_chunks := st.metadata_list.length
  let total_files := file_stats.length
  let total_length := (file_stats.map (fun p => p.2.total_length)).sum
  { total_chunks := total_chunks
    total_files := total_files
    total_length := total_length
    avg_chunks_per_file :=
      if 0 < total_files then (total_chunks : ℚ) / (total_files : ℚ) else 0
    avg_length_per_chunk :=
      if 0 < total_chunks then (total_length : ℚ) / (total_chunks : ℚ) else 0
    file_types := file_stats.foldl (fun m p => typeBump m p.2.file_type) []
    file_stats := file_stats
    chunk_lengths := distStats chunk_lengths
    file_chunk_counts := distStats file_chunk_counts }

/-- Bytes `urllib.parse.quote` never escapes (its `always_safe` set):
ASCII letters, digits, and `_ . - ~`.  `safe=''` adds nothing to it. -/
def isAlwaysSafe (b : Nat) : Prop :=
  (0x41 ≤ b ∧ b ≤ 0x5A) ∨ (0x61 ≤ b ∧ b ≤ 0x7A) ∨ (0x30 ≤ b ∧ b ≤ 0x39) ∨
  b = 0x5F ∨ b = 0x2E ∨ b = 0x2D ∨ b = 0x7E

instance : DecidablePred isAlwaysSafe := fun b =>
  inferInstanceAs (Decidable
    ((0x41 ≤ b ∧ b ≤ 0x5A) ∨ (0x61 ≤ b ∧ b ≤ 0x7A) ∨ (0x30 ≤ b ∧ b ≤ 0x39) ∨
     b = 0x5F ∨ b = 0x2E ∨ b = 0x2D ∨ b = 0x7E))

/-- Uppercase hex digit character code for a nibble, as `quote` emits. -/
def hexDigit (n : Nat) : Nat := if n < 10 then 0x30 + n else 0x41 + (n - 10)

/-- How `urllib.parse.quote(..., safe='')` renders one UTF-8 byte: kept
verbatim when always-safe, otherwise `%` followed by two uppercase hex
digits. -/
def quoteByte (b : Nat) : List Nat :=
  if isAlwaysSafe b then [b] else [0x25, hexDigit (b / 16), hexDigit (b % 16)]

/-- UTF-8 encoding of one Unicode code point (`str.encode('utf-8')`),
as a list of byte values.  Faithful for code points below `0x110000`. -/
def utf8EncodeChar (c : Nat) : List Nat :=
  if c < 0x80 then [c]
  else if c < 0x800 then [0xC0 + c / 0x40, 0x80 + c % 0x40]
  else if c < 0x10000 then
    [0xE0 + c / 0x1000, 0x80 + c / 0x40 % 0x40, 0x80 + c % 0x40]
  else
    [0xF0 + c / 0x40000, 0x80 + c / 0x1000 % 0x40,
     0x80 + c / 0x40 % 0x40, 0x80 + c % 0x40]

/-- Model of `urllib.parse.quote(name, safe='')` as used by `VectorStore.__init__`
to derive the directory name: UTF-8 encode the code points, then
percent-encode every byte outside the always-safe set.  Strings are lists
of Unicode code points. -/
def quote (name : List Nat) : List Nat :=
  (name.flatMap utf8EncodeChar).flatMap quoteByte

/-- Value of a hex digit character, either case. -/
def hexVal (c : Nat) : Nat :=
  if 0x30 ≤ c ∧ c ≤ 0x39 then c - 0x30
  else if 0x41 ≤ c ∧ c ≤ 0x46 then c - 0x41 + 10
  else if 0x61 ≤ c ∧ c ≤ 0x66 then c - 0x61 + 10
  else 0

/-- Recogniser for hex digit characters, either case. -/
def isHexDig (c : Nat) : Prop :=
  (0x30 ≤ c ∧ c ≤ 0x39) ∨ (0x41 ≤ c ∧ c ≤ 0x46) ∨ (0x61 ≤ c ∧ c ≤ 0x66)

instance : DecidablePred isHexDig := fun c =>
  inferInstanceAs (Decidable
    ((0x30 ≤ c ∧ c ≤ 0x39) ∨ (0x41 ≤ c ∧ c ≤ 0x46) ∨ (0x61 ≤ c ∧ c ≤ 0x66)))

/-- The percent-unescaping pass of `urllib.parse.unquote`: each `%` that is
followed by two hex digits becomes that byte; anything else passes through
(a stray `%` stays literal, as in Python). -/
def percentDecode : List Nat → List Nat
  | [] => []
  | [c] => [c]
  | [c, c1] => [c, c1]
  | c :: c1 :: c2 :: rest =>
    if c = 0x25 ∧ isHexDig c1 ∧ isHexDig c2 then
      (hexVal c1 * 16 + hexVal c2) :: percentDecode rest
    else c :: percentDecode (c1 :: c2 :: rest)

/-- State of the streaming UTF-8 decoder: whether an invalid byte was hit,
the code points finished so far, and the partial value with the number of
continuation bytes it still needs. -/
structure Utf8State where
  ok : Bool
  done : List Nat
  pending : Nat
  need : Nat
deriving DecidableEq

/-- One byte of streaming UTF-8 decoding: a lead byte opens a code point of
the arity its high bits announce; a continuation byte extends the pending
value and emits it once complete; anything out of place marks the stream
invalid. -/
def utf8Step (s : Utf8State) (b : Nat) : Utf8State :=
  if s.need = 0 then
    if b < 0x80 then { s with done := s.done ++ [b] }
    else if b < 0xC0 then { s with ok := false }
    else if b < 0xE0 then { s with pending := b - 0xC0, need := 1 }
    else if b < 0xF0 then { s with pending := b - 0xE0, need := 2 }
    else { s with pending := b - 0xF0, need := 3 }
  else
    if 0x80 ≤ b ∧ b < 0xC0 then
      if s.need = 1 then
        { s with done := s.done ++ [s.pending * 0x40 + (b - 0x80)],
                 pending := 0, need := 0 }
      else { s with pending := s.pending * 0x40 + (b - 0x80),
                    need := s.need - 1 }
    else { s with ok := false }

/-- UTF-8 decoding of a byte list back to code points.  `none` marks inputs
where Python's `errors='replace'` would substitute U+FFFD; on the image of
the encoder the two agree. -/
def utf8Decode (l : List Nat) : Option (List Nat) :=
  let s := l.foldl utf8Step { ok := true, done := [], pending := 0, need := 0 }
  if s.ok ∧ s.need = 0 then some s.done else none

/-- Model of `urllib.parse.unquote` as used by `app.get_original_db_name` to fall
back from an encoded directory name to a display name: percent-unescape,
then UTF-8 decode the resulting bytes. -/
def unquote (s : List Nat) : Option (List Nat) :=
  utf8Decode (percentDecode s)

/-- A disk state with a manually edited sidecar, for the C9 witness. -/
def dEdited : DiskState :=
  { indexFile := some [], metadataFile := some [], nameFile := some "edited" }

/-- A directory holding only the index file (metadata file missing). -/
def dOnlyIndex : DiskState :=
  { indexFile := some [[1]], metadataFile := none, nameFile := none }

/-- A directory whose two files disagree: one vector, zero metadata
entries. -/
def dMismatch : DiskState :=
  { indexFile := some [[1]], metadataFile := some [], nameFile := none }

/-- A chunk metadata record for the persistence fixtures. -/
def mdC4 : ChunkMeta :=
  { file_name := "a.txt", file_type := "Text", prev_chunks := [], next_chunks := [] }

/-- A one-chunk document for the C4 counterexample. -/
def docC4 : Doc := { text := "hi", embedding := [1, 2], metadata := mdC4 }

/-- An empty in-memory store for the C4 counterexample. -/
def storeC4 : VectorStore := { collection_name := "c", xb := [], metadata_list := [] }

/-- A chunk metadata record for the C2 witness fixtures. -/
def mdC2 : ChunkMeta :=
  { file_name := "b.txt", file_type := "Text", prev_chunks := [], next_chunks := [] }

/-- Three batches (one of them empty) for the C2 witness. -/
def batchesC2 : List (List Doc) :=
  [[{ text := "t1", embedding := [1], metadata := mdC2 }],
   [],
   [{ text := "t2", embedding := [2], metadata := mdC2 },
    { text := "t3", embedding := [3], metadata := mdC2 }]]

/-- A fresh store for the C2 witness. -/
def storeC2 : VectorStore := { collection_name := "c", xb := [], metadata_list := [] }

/-- The sidecar after any `__init__` holds the pre-existing content if there
was one, and the collection name otherwise. -/
theorem openDisk_nameFile (name : String) (d : DiskState) :
    (openDisk name d).nameFile = some (d.nameFile.getD name) := by
  rcases d with ⟨i, m, n⟩
  cases i <;> cases m <;> cases n <;> rfl

/-- C9: `name.txt` is written only when it does not already exist: an open
preserves any existing sidecar content (so a manually edited display name is
never clobbered), and after the first open any number of further opens
leaves the sidecar unchanged. -/
theorem sidecar_written_once (name : String) (d : DiskState) (n : Nat) :
    (∀ s, d.nameFile = some s → (openDisk name d).nameFile = some s) ∧
    ((fun dd => openDisk name dd)^[n] (openDisk name d)).nameFile
      = (openDisk name d).nameFile := by
  constructor
  · intro s hs
    rw [openDisk_nameFile, hs]
    rfl
  · induction n with
    | zero => rfl
    | succ k ih =>
        simp only [Function.iterate_succ_apply']
        rw [openDisk_nameFile, ih, openDisk_nameFile]
        rfl

/-- C9 witness: opening the collection `"c"` over a sidecar that reads
`"edited"` keeps the sidecar at `"edited"`. -/
theorem sidecar_written_once_witness :
    (openDisk "c" dEdited).nameFile = some "edited" :=
  (sidecar_written_once "c" dEdited 3).1 "edited" rfl

/-- C10: `delete_collection` removes only the on-disk directory; the
in-memory object (name, vectors, metadata) is untouched, so `search` and
`analyze_collection` on the same object still give their pre-delete
answers. -/
theorem delete_collection_memory_frame (st : VectorStore) (d : DiskState)
    (q : List ℚ) (k : Nat) :
    (delete_collection st d).1 = st ∧
    (delete_collection st d).1.collection_name = st.collection_name ∧
    (delete_collection st d).1.xb = st.xb ∧
    (delete_collection st d).1.metadata_list = st.metadata_list ∧
    search (delete_collection st d).1 q k = search st q k ∧
    analyze_collection (delete_collection st d).1 = analyze_collection st ∧
    (delete_collection st d).2.indexFile = none ∧
    (delete_collection st d).2.metadataFile = none ∧
    (delete_collection st d).2.nameFile = none :=
  ⟨rfl, rfl, rfl, rfl, rfl, rfl, rfl, rfl, rfl⟩

/-- C4 counterexample: on a save failure (`saveOk = false`) `add_documents`
raises, yet the in-memory metadata list and index are NOT rolled back to
their pre-append state. -/
theorem add_documents_rollback_cex :
    (add_documents storeC4 [docC4] false).2 = true ∧
    (add_documents storeC4 [docC4] false).1.metadata_list ≠ storeC4.metadata_list ∧
    (add_documents storeC4 [docC4] false).1.xb ≠ storeC4.xb := by
  refine ⟨rfl, ?_, ?_⟩ <;> decide

/-- C4 amended: when persistence fails, `add_documents` raises but the
in-memory vector index and metadata list keep the appended batch — the
append is not rolled back. -/
theorem add_documents_no_rollback (st : VectorStore) (docs : List Doc) :
    (add_documents st docs false).2 = true ∧
    (add_documents st docs false).1.xb
      = st.xb ++ docs.map (fun d => d.embedding) ∧
    (add_documents st docs false).1.metadata_list
      = st.metadata_list ++ docs.map docEntry :=
  ⟨rfl, rfl, rfl⟩

/-- C3 counterexample: with only the index file on disk (one vector, no
metadata file), `__init__` raises no `CorruptCollection` condition — it
silently creates a fresh empty index and even overwrites the surviving
file; and with both files present but inconsistent (1 vector vs 0 metadata
entries) it loads the mismatched pair without any check. -/
theorem vectorStoreInit_corruption_cex :
    (vectorStoreInit "c" dOnlyIndex).2.xb = [] ∧
    (vectorStoreInit "c" dOnlyIndex).2.metadata_list = [] ∧
    (vectorStoreInit "c" dOnlyIndex).1.indexFile = some [] ∧
    (vectorStoreInit "c" dOnlyIndex).1.metadataFile = some [] ∧
    (vectorStoreInit "c" dMismatch).2.xb.length = 1 ∧
    (vectorStoreInit "c" dMismatch).2.metadata_list.length = 0 := by
  decide

/-- C3 amended: opening a collection performs no corruption check — when
both files exist their contents are loaded as-is (even if the vector count
differs from the metadata length), and when either file is missing a fresh
empty index is silently created and saved over whatever was there. -/
theorem vectorStoreInit_no_validation (name : String) (d : DiskState) :
    (∀ xb ml, d.indexFile = some xb → d.metadataFile = some ml →
      (vectorStoreInit name d).2.xb = xb ∧
      (vectorStoreInit name d).2.metadata_list = ml) ∧
    ((d.indexFile = none ∨ d.metadataFile = none) →
      (vectorStoreInit name d).2.xb = [] ∧
      (vectorStoreInit name d).2.metadata_list = [] ∧
      (vectorStoreInit name d).1.indexFile = some [] ∧
      (vectorStoreInit name d).1.metadataFile = some []) := by
  rcases d with ⟨i, m, n⟩
  constructor
  · intro xb ml hi hm
    cases hi; cases hm
    cases n <;> exact ⟨rfl, rfl⟩
  · intro h
    cases i <;> cases m <;> cases n <;>
      first
        | exact ⟨rfl, rfl, rfl, rfl⟩
        | simp at h

/-- C3 witness: instantiating the amended statement on the directory that
has only an index file. -/
theorem vectorStoreInit_no_validation_witness :
    (vectorStoreInit "c" dOnlyIndex).2.xb = [] ∧
    (vectorStoreInit "c" dOnlyIndex).2.metadata_list = [] ∧
    (vectorStoreInit "c" dOnlyIndex).1.indexFile = some [] ∧
    (vectorStoreInit "c" dOnlyIndex).1.metadataFile = some [] :=
  (vectorStoreInit_no_validation "c" dOnlyIndex).2 (Or.inr rfl)

/-- C2: starting from any store whose index and metadata list are the
image of one document sequence, any sequence of `add_documents` calls
appends in lock step: the vectors are exactly the embeddings of all
documents in insertion order, the metadata list is exactly their metadata
records in the same order, and the two lengths agree. -/
theorem add_documents_positional (init : VectorStore) (initDocs : List Doc)
    (batches : List (List Doc))
    (hx : init.xb = initDocs.map (fun d => d.embedding))
    (hm : init.metadata_list = initDocs.map docEntry) :
    (addMany init batches).xb
      = (initDocs ++ batches.flatten).map (fun d => d.embedding) ∧
    (addMany init batches).metadata_list
      = (initDocs ++ batches.flatten).map docEntry ∧
    (addMany init batches).xb.length
      = (addMany init batches).metadata_list.length := by
  induction batches generalizing init initDocs with
  | nil =>
      refine ⟨by simpa [addMany] using hx, by simpa [addMany] using hm, ?_⟩
      simp [addMany, hx, hm]
  | cons b bs ih =>
      have hx2 : ((add_documents init b true).1).xb
          = (initDocs ++ b).map (fun d => d.embedding) := by
        simp [add_documents, hx]
      have hm2 : ((add_documents init b true).1).metadata_list
          = (initDocs ++ b).map docEntry := by
        simp [add_documents, hm]
      have h2 := ih ((add_documents init b true).1) (initDocs ++ b) hx2 hm2
      simpa [addMany, List.append_assoc] using h2

/-- An empty collection for the C5 counterexample. -/
def storeC5 : VectorStore := { collection_name := "c", xb := [], metadata_list := [] }

/-- Adjacency metadata for the search fixtures (all chunks of one file). -/
def mdSearch (p n : List Int) : ChunkMeta :=
  { file_name := "f.txt", file_type := "Text", prev_chunks := p, next_chunks := n }

/-- Three chunks of one file with full adjacency links; chunk 0 is nearest
to the query `[0]`, chunk 1 next, chunk 2 far. -/
def storeC1 : VectorStore :=
  { collection_name := "c"
    xb := [[0], [1], [10]]
    metadata_list :=
      [{ text := "t0", metadata := mdSearch [] [1, 2] },
       { text := "t1", metadata := mdSearch [0] [2] },
       { text := "t2", metadata := mdSearch [0, 1] [] }] }

/-- Filtering out `-1` labels kills a padding run entirely. -/
theorem filter_replicate_neg_one (n : Nat) :
    (List.replicate n (-1 : Int)).filter (fun i => i ≠ -1) = [] := by
  induction n with
  | zero => rfl
  | succ m ih => simp [List.replicate_succ, ih]

/-- The report positions of a flat search are pairwise distinct. -/
theorem faissChosen_fst_nodup (xb : List (List ℚ)) (q : List ℚ) (m : Nat) :
    ((faissChosen xb q m).map Prod.fst).Nodup := by
  have hperm := List.perm_insertionSort searchOrder ((xb.map (sqDist q)).enum)
  have h1 : ((List.insertionSort searchOrder
      ((xb.map (sqDist q)).enum)).map Prod.fst).Nodup := by
    refine ((hperm.map Prod.fst).nodup_iff).mpr ?_
    rw [List.enum_map_fst]
    exact List.nodup_range _
  rw [faissChosen, List.map_take]
  exact h1.sublist (List.take_sublist m _)

/-- The `initial_results` of `VectorStore.search` contain no repeats. -/
theorem searchInitial_nodup (st : VectorStore) (q : List ℚ) (k : Nat) :
    (searchInitial st q k).Nodup := by
  have hreal : ((faissChosen st.xb q (k * 2)).map
      (fun p => ((p.1 : ℕ) : Int))).Nodup := by
    have := faissChosen_fst_nodup st.xb q (k * 2)
    rw [show (fun p : ℕ × ℚ => ((p.1 : ℕ) : Int))
        = (fun n : ℕ => (n : Int)) ∘ Prod.fst from rfl, ← List.map_map]
    exact this.map (fun a b h => Int.ofNat.inj h)
  have hsub : List.Sublist (searchInitial st q k)
      ((faissChosen st.xb q (k * 2)).map (fun p => ((p.1 : ℕ) : Int))) := by
    have h1 : List.Sublist (searchInitial st q k)
        ((searchIndices st q k).filter (fun i => i ≠ -1)) :=
      (List.take_sublist k (searchIndices st q k)).filter _
    have h2 : (searchIndices st q k).filter (fun i => i ≠ -1)
        = (faissChosen st.xb q (k * 2)).map (fun p => ((p.1 : ℕ) : Int)) := by
      rw [searchIndices, faissSearch]
      rw [List.filter_append, filter_replicate_neg_one, List.append_nil]
      refine List.filter_eq_self.mpr ?_
      intro a ha
      rcases List.mem_map.mp ha with ⟨p, _, rfl⟩
      simp
    rw [h2] at h1
    exact h1
  exact hreal.sublist hsub

/-- First result loop of `search`: on a repeat-free index list disjoint
from `seen_indices`, it appends one entry per index, in order, and marks
each as seen. -/
theorem foldl_searchStep_eq (st : VectorStore) (q : List ℚ) (k : Nat) :
    ∀ (l : List Int) (res : List SearchResult) (seen : List Int),
      l.Nodup → (∀ x ∈ l, x ∉ seen) →
      l.foldl (searchStep st q k) (res, seen)
        = (res ++ l.map (searchEntry st q k), l.reverse ++ seen) := by
  intro l
  induction l with
  | nil => intro res seen _ _; simp
  | cons a t ih =>
      intro res seen hnd hdisj
      have ha : a ∉ seen := hdisj a (List.mem_cons_self a t)
      rw [List.foldl_cons]
      have hstep : searchStep st q k (res, seen) a
          = (res ++ [searchEntry st q k a], a :: seen) := by
        rw [searchStep, if_neg ha]
      rw [hstep]
      rw [ih (res ++ [searchEntry st q k a]) (a :: seen)
          (List.Nodup.of_cons hnd) ?_]
      · simp
      · intro x hx
        rcases List.nodup_cons.mp hnd with ⟨hna, _⟩
        intro hmem
        rcases List.mem_cons.mp hmem with h | h
        · exact hna (h ▸ hx)
        · exact hdisj x (List.mem_cons_of_mem a hx) h

/-- Second (related-chunk) loop of `search`: once every member of
`initial_results` is already seen, no iteration changes the accumulator. -/
theorem foldl_searchRelatedStep_fixed (st : VectorStore) (q : List ℚ)
    (k : Nat) (initial : List Int) :
    ∀ (l : List Int) (acc : List SearchResult × List Int),
      (∀ x ∈ initial, x ∈ acc.2) →
      l.foldl (searchRelatedStep st q k initial) acc = acc := by
  intro l
  induction l with
  | nil => intro acc _; rfl
  | cons a t ih =>
      intro acc hsub
      rw [List.foldl_cons]
      have hstep : searchRelatedStep st q k initial acc a = acc := by
        rw [searchRelatedStep, if_neg]
        rintro ⟨hns, hin⟩
        exact hns (hsub a hin)
      rw [hstep]
      exact ih acc hsub

/-- C1: on a non-empty collection, `search` over-fetches the `2k` nearest,
keeps the first `k` valid labels as the initial result set, and the final
output is EXACTLY one entry per initial result — the related-chunk pass adds
only members already in the initial result set, hence nothing: adjacency
expansion never introduces a chunk the nearest-neighbor query itself did not
return within the first `k`. -/
theorem search_expansion_contract (st : VectorStore) (q : List ℚ) (k : Nat)
    (hne : st.xb ≠ []) :
    search st q k = (searchInitial st q k).map (searchEntry st q k) := by
  have hnd := searchInitial_nodup st q k
  have h1 := foldl_searchStep_eq st q k (searchInitial st q k) [] []
      hnd (by intro x _; exact List.not_mem_nil x)
  have h2 := foldl_searchRelatedStep_fixed st q k (searchInitial st q k)
      (getRelatedChunks st.metadata_list (searchInitial st q k))
      ([] ++ (searchInitial st q k).map (searchEntry st q k),
        (searchInitial st q k).reverse ++ [])
      (by intro x hx; simpa using hx)
  show ((getRelatedChunks st.metadata_list (searchInitial st q k)).foldl
      (searchRelatedStep st q k (searchInitial st q k))
      ((searchInitial st q k).foldl (searchStep st q k) ([], []))).1
    = (searchInitial st q k).map (searchEntry st q k)
  rw [h1, h2]
  simp

/-- C1 witness: with `k = 1` on the three-chunk fixture, chunks 1 and 2 are
adjacent to the returned chunk 0 (and chunk 1 even sits in the over-fetched
`2k` set), yet the output is the single initial result. -/
theorem search_expansion_contract_witness :
    storeC1.xb ≠ [] ∧
    search storeC1 [0] 1
      = (searchInitial storeC1 [0] 1).map (searchEntry storeC1 [0] 1) ∧
    search storeC1 [0] 1
      = [{ text := "t0", metadata := mdSearch [] [1, 2], distance := 0 }] := by
  have hpairs : (storeC1.xb.map (sqDist [0])).enum
      = [(0, 0), (1, 1), (2, 100)] := by
    norm_num [storeC1, sqDist, List.enum, List.enumFrom]
  have hchosen : faissChosen storeC1.xb [0] (1 * 2) = [(0, 0), (1, 1)] := by
    rw [faissChosen, hpairs]
    decide
  have hIdx : searchIndices storeC1 [0] 1 = [0, 1] := by
    simp only [searchIndices, faissSearch, hchosen]
    decide
  have hDist : searchDistances storeC1 [0] 1 = [0, 1] := by
    simp only [searchDistances, faissSearch, hchosen]
    decide
  have hinit : searchInitial storeC1 [0] 1 = [0] := by
    rw [searchInitial, hIdx]
    decide
  have hmain := search_expansion_contract storeC1 [0] 1 (by decide)
  refine ⟨by decide, hmain, ?_⟩
  rw [hmain, hinit]
  simp only [List.map_cons, List.map_nil, searchEntry, hDist, hIdx]
  decide

/-- C5 counterexample: searching a collection that stores zero vectors does
not fail — it returns the empty result list (all FAISS labels are `-1`, so
every loop is skipped); the source defines no `EmptyCollection` error at
all. -/
theorem search_empty_cex : search storeC5 [1] 5 = [] := by decide

/-- C5 amended: for every query and every `k`, `search` on a collection
with zero stored vectors returns `[]` normally — an empty collection is
indistinguishable from a no-match result, not a precondition failure. -/
theorem search_empty_returns_nil (st : VectorStore) (q : List ℚ) (k : Nat)
    (h : st.xb = []) : search st q k = [] := by
  have hidx : searchIndices st q k = List.replicate (k * 2) (-1) := by
    simp [searchIndices, faissSearch, faissChosen, h, List.insertionSort]
  have hinit : searchInitial st q k = [] := by
    rw [searchInitial, hidx, List.take_replicate]
    exact filter_replicate_neg_one _
  simp [search, hinit, getRelatedChunks]

/-- C5 witness: the amended statement applied to the empty fixture. -/
theorem search_empty_returns_nil_witness :
    storeC5.xb = [] ∧ search storeC5 [2] 4 = [] :=
  ⟨rfl, search_empty_returns_nil storeC5 [2] 4 rfl⟩

/-- Chunk metadata with no adjacency, for the analyzer fixtures. -/
def mdFile (fn ft : String) : ChunkMeta :=
  { file_name := fn, file_type := ft, prev_chunks := [], next_chunks := [] }

/-- The spec's analyzer fixture: file `A` with chunks of length 10, 20, 30
and file `B` with one chunk of length 5. -/
def storeC6 : VectorStore :=
  { collection_name := "c", xb := [],
    metadata_list :=
      [{ text := "aaaaaaaaaa", metadata := mdFile "A" "Text" },
       { text := "bbbbbbbbbbbbbbbbbbbb", metadata := mdFile "A" "Text" },
       { text := "cccccccccccccccccccccccccccccc", metadata := mdFile "A" "Text" },
       { text := "ddddd", metadata := mdFile "B" "PDF" }] }

/-- One file with two chunks, the C7 failing input. -/
def storeC7 : VectorStore :=
  { collection_name := "c", xb := [],
    metadata_list :=
      [{ text := "xy", metadata := mdFile "a.txt" "Text" },
       { text := "zw", metadata := mdFile "a.txt" "Text" }] }

/-- The `any`-based membership probe of `statsInsert` agrees with key
membership. -/
theorem any_key_eq_mem (fs : List (String × FileStat)) (fname : String) :
    (fs.any (fun p => p.1 == fname)) = true ↔ fname ∈ fs.map Prod.fst := by
  rw [List.any_eq_true]
  constructor
  · rintro ⟨p, hp, he⟩
    exact List.mem_map.mpr ⟨p, hp, beq_iff_eq.mp he⟩
  · intro h
    rcases List.mem_map.mp h with ⟨p, hp, he⟩
    exact ⟨p, hp, beq_iff_eq.mpr he⟩

/-- Inserting via `statsInsert` leaves the key list alone or appends the new key. -/
theorem statsInsert_keys (fs : List (String × FileStat)) (fname ftype : String) :
    (statsInsert fs fname ftype).map Prod.fst
      = if fname ∈ fs.map Prod.fst then fs.map Prod.fst
        else fs.map Prod.fst ++ [fname] := by
  rw [statsInsert]
  by_cases h : fname ∈ fs.map Prod.fst
  · rw [if_pos ((any_key_eq_mem fs fname).mpr h), if_pos h]
  · rw [if_neg (fun hc => h ((any_key_eq_mem fs fname).mp hc)), if_neg h]
    simp

/-- Bumping via `statsBump` never changes the key list. -/
theorem statsBump_keys (fs : List (String × FileStat)) (fname : String)
    (c : Nat) : (statsBump fs fname c).map Prod.fst = fs.map Prod.fst := by
  induction fs with
  | nil => rfl
  | cons p t ih =>
      simp only [statsBump, List.map_cons] at ih ⊢
      by_cases h : (p.1 == fname) = true
      · rw [if_pos h, ih]
      · rw [if_neg h, ih]

/-- Bumping a key that is absent is the identity. -/
theorem statsBump_of_not_mem (fs : List (String × FileStat)) (fname : String)
    (c : Nat) (h : fname ∉ fs.map Prod.fst) : statsBump fs fname c = fs := by
  induction fs with
  | nil => rfl
  | cons p t ih =>
      simp only [List.map_cons, List.mem_cons] at h
      push_neg at h
      have hp : ¬(p.1 == fname) = true := by
        simp only [beq_iff_eq]
        exact fun he => h.1 he.symm
      simp only [statsBump, List.map_cons] at ih ⊢
      rw [if_neg hp]
      have := ih h.2
      simp only [statsBump] at this
      rw [this]

/-- Bumping a present key (keys repeat-free) adds exactly `c` to the summed
total lengths. -/
theorem statsBump_sum (fs : List (String × FileStat)) (fname : String)
    (c : Nat) (hnd : (fs.map Prod.fst).Nodup)
    (hmem : fname ∈ fs.map Prod.fst) :
    ((statsBump fs fname c).map (fun p => p.2.total_length)).sum
      = (fs.map (fun p => p.2.total_length)).sum + c := by
  induction fs with
  | nil => simp at hmem
  | cons p t ih =>
      simp only [List.map_cons, List.nodup_cons] at hnd hmem
      rcases List.mem_cons.mp hmem with h | h
      · have hp : (p.1 == fname) = true := beq_iff_eq.mpr h.symm
        have ht : statsBump t fname c = t := by
          refine statsBump_of_not_mem t fname c ?_
          rw [h]
          exact hnd.1
        simp only [statsBump] at ht ⊢
        rw [List.map_cons, if_pos hp, ht, List.map_cons, List.map_cons,
          List.sum_cons, List.sum_cons]
        show p.2.total_length + c + _ = _
        omega
      · have hp : ¬(p.1 == fname) = true := by
          simp only [beq_iff_eq]
          intro he
          rw [he] at hnd
          exact hnd.1 h
        have hrec := ih hnd.2 h
        simp only [statsBump] at hrec ⊢
        rw [List.map_cons, if_neg hp, List.map_cons, List.map_cons,
          List.sum_cons, List.sum_cons, hrec]
        omega

/-- Inserting via `statsInsert` does not change the summed total lengths (a fresh entry
starts at 0). -/
theorem statsInsert_sum (fs : List (String × FileStat)) (fname ftype : String) :
    ((statsInsert fs fname ftype).map (fun p => p.2.total_length)).sum
      = (fs.map (fun p => p.2.total_length)).sum := by
  rw [statsInsert]
  split <;> simp

/-- After `statsInsert`, the inserted key is present. -/
theorem mem_statsInsert_keys (fs : List (String × FileStat))
    (fname ftype : String) :
    fname ∈ (statsInsert fs fname ftype).map Prod.fst := by
  rw [statsInsert_keys]
  split
  · assumption
  · simp

/-- Inserting via `statsInsert` keeps the key list repeat-free. -/
theorem statsInsert_keys_nodup (fs : List (String × FileStat))
    (fname ftype : String) (h : (fs.map Prod.fst).Nodup) :
    ((statsInsert fs fname ftype).map Prod.fst).Nodup := by
  rw [statsInsert_keys]
  split
  · exact h
  · next hnm => simp [List.Nodup.append, h, List.disjoint_singleton, hnm]

/-- Inserting via `statsInsert` adds the key to the key set. -/
theorem statsInsert_keys_toFinset (fs : List (String × FileStat))
    (fname ftype : String) :
    ((statsInsert fs fname ftype).map Prod.fst).toFinset
      = insert fname (fs.map Prod.fst).toFinset := by
  rw [statsInsert_keys]
  split
  · next hm => rw [Finset.insert_eq_self.mpr (List.mem_toFinset.mpr hm)]
  · simp [Finset.insert_eq, Finset.union_comm]

/-- Invariants of the `analyze_collection` loop: the per-file table keeps
repeat-free keys whose set is the set of file names seen, its summed total
lengths equal the summed chunk lengths, `chunk_lengths` collects one text
length per chunk in order, and `file_chunk_counts` grows by one entry PER
CHUNK (not per file). -/
theorem analyze_loop_spec :
    ∀ (ml : List MetaEntry) (fs : List (String × FileStat)) (ls cs : List Nat),
      (fs.map Prod.fst).Nodup →
      (((ml.foldl analyzeStep (fs, ls, cs)).1).map Prod.fst).Nodup ∧
      (((ml.foldl analyzeStep (fs, ls, cs)).1).map Prod.fst).toFinset
        = (fs.map Prod.fst).toFinset
          ∪ (ml.map (fun d => d.metadata.file_name)).toFinset ∧
      (((ml.foldl analyzeStep (fs, ls, cs)).1).map
          (fun p => p.2.total_length)).sum
        = (fs.map (fun p => p.2.total_length)).sum
          + (ml.map (fun d => d.text.length)).sum ∧
      (ml.foldl analyzeStep (fs, ls, cs)).2.1
        = ls ++ ml.map (fun d => d.text.length) ∧
      (ml.foldl analyzeStep (fs, ls, cs)).2.2.length = cs.length + ml.length := by
  intro ml
  induction ml with
  | nil => intro fs ls cs h; simp [h]
  | cons d t ih =>
      intro fs ls cs h
      rw [List.foldl_cons]
      have hstep : analyzeStep (fs, ls, cs) d
          = (statsBump (statsInsert fs d.metadata.file_name d.metadata.file_type)
               d.metadata.file_name d.text.length,
             ls ++ [d.text.length],
             cs ++ [statCount
               (statsBump (statsInsert fs d.metadata.file_name d.metadata.file_type)
                 d.metadata.file_name d.text.length) d.metadata.file_name]) := rfl
      rw [hstep]
      have hnd2 : ((statsBump (statsInsert fs d.metadata.file_name
          d.metadata.file_type) d.metadata.file_name d.text.length).map
          Prod.fst).Nodup := by
        rw [statsBump_keys]
        exact statsInsert_keys_nodup fs _ _ h
      obtain ⟨i1, i2, i3, i4, i5⟩ := ih _ _ _ hnd2
      refine ⟨i1, ?_, ?_, ?_, ?_⟩
      · rw [i2, statsBump_keys, statsInsert_keys_toFinset]
        simp only [List.map_cons, List.toFinset_cons]
        rw [Finset.insert_eq, Finset.insert_eq, Finset.union_assoc,
          Finset.union_left_comm]
      · rw [i3, statsBump_sum _ _ _
            (statsInsert_keys_nodup fs _ _ h) (mem_statsInsert_keys fs _ _),
          statsInsert_sum]
        simp only [List.map_cons, List.sum_cons]
        omega
      · rw [i4]
        simp
      · rw [i5]
        simp only [List.length_append, List.length_cons, List.length_nil]
        omega

/-- C6 amended: `analyze_collection` reports `total_chunks` = metadata
length, `total_files` = number of distinct file names, `total_length` = sum
of chunk text lengths, and a chunk-length median equal to the element at
index `n / 2` of the sorted lengths; on the spec's fixture (file A lengths
10, 20, 30; file B length 5) this gives 4 / 2 / 65 / min 5 / max 30 /
median 20 — not the claimed median 15. -/
theorem analyze_collection_spec :
    (∀ st : VectorStore,
      (analyze_collection st).total_chunks = st.metadata_list.length ∧
      (analyze_collection st).total_files
        = (st.metadata_list.map (fun d => d.metadata.file_name)).toFinset.card ∧
      (analyze_collection st).total_length
        = (st.metadata_list.map (fun d => d.text.length)).sum ∧
      (analyze_collection st).chunk_lengths.median
        = (List.insertionSort (fun a b => a ≤ b)
            (st.metadata_list.map (fun d => d.text.length))).getD
            (st.metadata_list.length / 2) 0) ∧
    ((analyze_collection storeC6).total_chunks = 4 ∧
     (analyze_collection storeC6).total_files = 2 ∧
     (analyze_collection storeC6).total_length = 65 ∧
     (analyze_collection storeC6).chunk_lengths.min = 5 ∧
     (analyze_collection storeC6).chunk_lengths.max = 30 ∧
     (analyze_collection storeC6).chunk_lengths.median = 20) := by
  constructor
  · intro st
    obtain ⟨h1, h2, h3, h4, h5⟩ :=
      analyze_loop_spec st.metadata_list [] [] [] (by simp)
    refine ⟨rfl, ?_, ?_, ?_⟩
    · show (st.metadata_list.foldl analyzeStep ([], [], [])).1.length = _
      rw [← List.length_map _ Prod.fst, ← List.toFinset_card_of_nodup h1, h2]
      simp
    · show ((st.metadata_list.foldl analyzeStep ([], [], [])).1.map
          (fun p => p.2.total_length)).sum = _
      rw [h3]
      simp
    · show (distStats (st.metadata_list.foldl analyzeStep ([], [], [])).2.1).median = _
      rw [distStats, h4]
      simp
  · refine ⟨rfl, by decide, by decide, by decide, by decide, by decide⟩

/-- C6 counterexample: on the spec's own fixture the chunk-length median the
code computes (`sorted[4 // 2]`) is 20, not the 15 the claim states. -/
theorem analyze_median_cex :
    (analyze_collection storeC6).chunk_lengths.median = 20 ∧
    (analyze_collection storeC6).chunk_lengths.median ≠ 15 := by
  constructor <;> decide

/-- C7: the `file_chunk_counts` distribution is computed over one entry per
CHUNK — the file's running count at that chunk — not one entry per distinct
file: its `values` list always has `total_chunks` elements, and on a single
file with two chunks it is `[1, 2]` (min 1), where the per-file counts
would be `[2]` (min 2). -/
theorem file_chunk_counts_running :
    (∀ st : VectorStore,
      (analyze_collection st).file_chunk_counts.values.length
        = st.metadata_list.length) ∧
    (analyze_collection storeC7).total_files = 1 ∧
    (analyze_collection storeC7).file_chunk_counts.values = [1, 2] ∧
    (analyze_collection storeC7).file_chunk_counts.min = 1 := by
  refine ⟨?_, by decide, by decide, by decide⟩
  intro st
  obtain ⟨_, _, _, _, h5⟩ :=
    analyze_loop_spec st.metadata_list [] [] [] (by simp)
  show ((st.metadata_list.foldl analyzeStep ([], [], [])).2.2).length = _
  rw [h5]
  simp

/-- Every byte of the UTF-8 encoding of a Unicode code point is a byte. -/
theorem utf8EncodeChar_lt_256 (c : Nat) (hc : c < 0x110000) :
    ∀ b ∈ utf8EncodeChar c, b < 256 := by
  intro b hb
  rw [utf8EncodeChar] at hb
  by_cases h1 : c < 0x80
  · rw [if_pos h1, List.mem_singleton] at hb
    omega
  · rw [if_neg h1] at hb
    by_cases h2 : c < 0x800
    · rw [if_pos h2] at hb
      simp only [List.mem_cons, List.not_mem_nil, or_false] at hb
      rcases hb with rfl | rfl <;> omega
    · rw [if_neg h2] at hb
      by_cases h3 : c < 0x10000
      · rw [if_pos h3] at hb
        simp only [List.mem_cons, List.not_mem_nil, or_false] at hb
        rcases hb with rfl | rfl | rfl <;> omega
      · rw [if_neg h3] at hb
        simp only [List.mem_cons, List.not_mem_nil, or_false] at hb
        rcases hb with rfl | rfl | rfl | rfl <;> omega

/-- The function `hexDigit` emits a hex digit character whose value is the nibble. -/
theorem hexDigit_hexVal (n : Nat) (h : n < 16) :
    isHexDig (hexDigit n) ∧ hexVal (hexDigit n) = n := by
  rw [hexDigit]
  by_cases hn : n < 10
  · rw [if_pos hn]
    constructor
    · rw [isHexDig]
      left
      exact ⟨by omega, by omega⟩
    · rw [hexVal, if_pos ⟨by omega, by omega⟩]
      omega
  · rw [if_neg hn]
    constructor
    · rw [isHexDig]
      right
      left
      exact ⟨by omega, by omega⟩
    · rw [hexVal, if_neg (by omega), if_pos ⟨by omega, by omega⟩]
      omega

/-- A non-`%` character passes through the percent-unescaper. -/
theorem percentDecode_cons (b : Nat) (l : List Nat) (hb : b ≠ 0x25) :
    percentDecode (b :: l) = b :: percentDecode l := by
  match l with
  | [] => rfl
  | [c1] => rfl
  | c1 :: c2 :: r =>
    rw [percentDecode, if_neg]
    rintro ⟨h, _⟩
    exact hb h

/-- Percent-unescaping undoes `quoteByte` at the head of a stream. -/
theorem percentDecode_quoteByte (b : Nat) (l : List Nat) (hb : b < 256) :
    percentDecode (quoteByte b ++ l) = b :: percentDecode l := by
  rw [quoteByte]
  split
  · next hsafe =>
    have hb25 : b ≠ 0x25 := by
      rw [isAlwaysSafe] at hsafe
      omega
    simpa using percentDecode_cons b l hb25
  · simp only [List.cons_append, List.nil_append]
    rw [percentDecode, if_pos
      ⟨rfl, (hexDigit_hexVal (b / 16) (by omega)).1,
        (hexDigit_hexVal (b % 16) (by omega)).1⟩]
    rw [(hexDigit_hexVal (b / 16) (by omega)).2,
      (hexDigit_hexVal (b % 16) (by omega)).2]
    congr 1
    omega

/-- Percent-unescaping undoes the bytewise quoting of a byte list. -/
theorem percentDecode_quote_bytes (bs : List Nat) (l : List Nat)
    (hb : ∀ b ∈ bs, b < 256) :
    percentDecode (bs.flatMap quoteByte ++ l) = bs ++ percentDecode l := by
  induction bs with
  | nil => simp
  | cons b t ih =>
      simp only [List.flatMap_cons, List.append_assoc]
      rw [percentDecode_quoteByte b _ (hb b (List.mem_cons_self b t))]
      rw [ih (fun x hx => hb x (List.mem_cons_of_mem b hx))]
      rfl

/-- A lead byte read in a clean state opens a code point with the announced
arity and high bits. -/
theorem utf8Step_lead (ok : Bool) (done : List Nat) (b : Nat) :
    (b < 0x80 →
      utf8Step ⟨ok, done, 0, 0⟩ b = ⟨ok, done ++ [b], 0, 0⟩) ∧
    (0xC0 ≤ b → b < 0xE0 →
      utf8Step ⟨ok, done, 0, 0⟩ b = ⟨ok, done, b - 0xC0, 1⟩) ∧
    (0xE0 ≤ b → b < 0xF0 →
      utf8Step ⟨ok, done, 0, 0⟩ b = ⟨ok, done, b - 0xE0, 2⟩) ∧
    (0xF0 ≤ b →
      utf8Step ⟨ok, done, 0, 0⟩ b = ⟨ok, done, b - 0xF0, 3⟩) := by
  refine ⟨fun h1 => ?_, fun h1 h2 => ?_, fun h1 h2 => ?_, fun h1 => ?_⟩
  · unfold utf8Step
    rw [if_pos rfl, if_pos h1]
  · unfold utf8Step
    rw [if_pos rfl, if_neg (by omega), if_neg (by omega), if_pos h2]
  · unfold utf8Step
    rw [if_pos rfl, if_neg (by omega), if_neg (by omega), if_neg (by omega),
      if_pos h2]
  · unfold utf8Step
    rw [if_pos rfl, if_neg (by omega), if_neg (by omega), if_neg (by omega),
      if_neg (by omega)]

/-- A continuation byte extends a pending code point, emitting it when it
was the last one needed. -/
theorem utf8Step_cont (ok : Bool) (done : List Nat) (p n b : Nat)
    (h1 : 0x80 ≤ b) (h2 : b < 0xC0) :
    (utf8Step ⟨ok, done, p, 1⟩ b
      = ⟨ok, done ++ [p * 0x40 + (b - 0x80)], 0, 0⟩) ∧
    (n ≠ 0 → n ≠ 1 →
      utf8Step ⟨ok, done, p, n⟩ b = ⟨ok, done, p * 0x40 + (b - 0x80), n - 1⟩) := by
  constructor
  · unfold utf8Step
    rw [if_neg (show ¬((⟨ok, done, p, 1⟩ : Utf8State).need = 0) by simp),
      if_pos ⟨h1, h2⟩,
      if_pos (show (⟨ok, done, p, 1⟩ : Utf8State).need = 1 from rfl)]
  · intro hn0 hn1
    unfold utf8Step
    rw [if_neg (show ¬((⟨ok, done, p, n⟩ : Utf8State).need = 0) from hn0),
      if_pos ⟨h1, h2⟩,
      if_neg (show ¬((⟨ok, done, p, n⟩ : Utf8State).need = 1) from hn1)]

/-- Folding the decoder over the UTF-8 encoding of one code point appends
exactly that code point. -/
theorem utf8Step_encodeChar (c : Nat) (hc : c < 0x110000) (ok : Bool)
    (done : List Nat) :
    (utf8EncodeChar c).foldl utf8Step ⟨ok, done, 0, 0⟩ = ⟨ok, done ++ [c], 0, 0⟩ := by
  rw [utf8EncodeChar]
  by_cases h1 : c < 0x80
  · rw [if_pos h1]
    simp only [List.foldl_cons, List.foldl_nil]
    rw [(utf8Step_lead ok done c).1 h1]
  · rw [if_neg h1]
    by_cases h2 : c < 0x800
    · rw [if_pos h2]
      simp only [List.foldl_cons, List.foldl_nil]
      rw [(utf8Step_lead ok done _).2.1 (by omega) (by omega)]
      rw [(utf8Step_cont ok done _ 0 _ (by omega) (by omega)).1]
      have hv : (0xC0 + c / 0x40 - 0xC0) * 0x40 + (0x80 + c % 0x40 - 0x80) = c := by
        omega
      rw [hv]
    · rw [if_neg h2]
      by_cases h3 : c < 0x10000
      · rw [if_pos h3]
        simp only [List.foldl_cons, List.foldl_nil]
        rw [(utf8Step_lead ok done _).2.2.1 (by omega) (by omega)]
        rw [(utf8Step_cont ok done _ 2 _ (by omega) (by omega)).2
          (by omega) (by omega)]
        rw [(utf8Step_cont ok done _ 0 _ (by omega) (by omega)).1]
        have hv : ((0xE0 + c / 0x1000 - 0xE0) * 0x40
              + (0x80 + c / 0x40 % 0x40 - 0x80)) * 0x40
            + (0x80 + c % 0x40 - 0x80) = c := by
          omega
        rw [hv]
      · rw [if_neg h3]
        simp only [List.foldl_cons, List.foldl_nil]
        rw [(utf8Step_lead ok done _).2.2.2 (by omega)]
        rw [(utf8Step_cont ok done _ 3 _ (by omega) (by omega)).2
          (by omega) (by omega)]
        rw [(utf8Step_cont ok done _ 2 _ (by omega) (by omega)).2
          (by omega) (by omega)]
        rw [(utf8Step_cont ok done _ 0 _ (by omega) (by omega)).1]
        have hv : (((0xF0 + c / 0x40000 - 0xF0) * 0x40
                + (0x80 + c / 0x1000 % 0x40 - 0x80)) * 0x40
              + (0x80 + c / 0x40 % 0x40 - 0x80)) * 0x40
            + (0x80 + c % 0x40 - 0x80) = c := by
          omega
        rw [hv]

/-- Folding the decoder over the UTF-8 encoding of a code-point list
appends exactly that list. -/
theorem utf8Step_encode (cs : List Nat) (hc : ∀ c ∈ cs, c < 0x110000)
    (ok : Bool) (done : List Nat) :
    (cs.flatMap utf8EncodeChar).foldl utf8Step ⟨ok, done, 0, 0⟩
      = ⟨ok, done ++ cs, 0, 0⟩ := by
  induction cs generalizing done with
  | nil => simp
  | cons c t ih =>
      rw [List.flatMap_cons, List.foldl_append,
        utf8Step_encodeChar c (hc c (List.mem_cons_self c t)) ok done,
        ih (fun x hx => hc x (List.mem_cons_of_mem c hx)) (done ++ [c])]
      simp

/-- The UTF-8 decoder undoes the encoder on a code-point list. -/
theorem utf8Decode_encode (cs : List Nat) (hc : ∀ c ∈ cs, c < 0x110000) :
    utf8Decode (cs.flatMap utf8EncodeChar) = some cs := by
  rw [utf8Decode, utf8Step_encode cs hc true []]
  simp

/-- The decoder `unquote` is a left inverse of `quote` on Unicode strings. -/
theorem quote_unquote (n : List Nat) (h : ∀ c ∈ n, c < 0x110000) :
    unquote (quote n) = some n := by
  rw [unquote, quote]
  have hbytes : ∀ b ∈ n.flatMap utf8EncodeChar, b < 256 := by
    intro b hb
    rcases List.mem_flatMap.mp hb with ⟨c, hc, hbc⟩
    exact utf8EncodeChar_lt_256 c (h c hc) b hbc
  have h2 := percentDecode_quote_bytes (n.flatMap utf8EncodeChar) [] hbytes
  rw [List.append_nil] at h2
  rw [h2, show percentDecode [] = [] from rfl, List.append_nil]
  exact utf8Decode_encode n h

/-- Every character `quote` emits is printable ASCII and not a path
separator. -/
theorem quote_bytes_safe (n : List Nat) (h : ∀ c ∈ n, c < 0x110000) :
    ∀ b ∈ quote n, 0x24 ≤ b ∧ b ≤ 0x7E ∧ b ≠ 0x2F := by
  intro b hb
  rw [quote] at hb
  rcases List.mem_flatMap.mp hb with ⟨y, hy, hby⟩
  have hy256 : y < 256 := by
    rcases List.mem_flatMap.mp hy with ⟨c, hc, hyc⟩
    exact utf8EncodeChar_lt_256 c (h c hc) y hyc
  rw [quoteByte] at hby
  split at hby
  · next hsafe =>
    rw [List.mem_singleton] at hby
    subst hby
    rw [isAlwaysSafe] at hsafe
    omega
  · simp only [List.mem_cons, List.not_mem_nil, or_false] at hby
    have hd1 : 0x30 ≤ hexDigit (y / 16) ∧ hexDigit (y / 16) ≤ 0x46 := by
      rw [hexDigit]
      split <;> omega
    have hd2 : 0x30 ≤ hexDigit (y % 16) ∧ hexDigit (y % 16) ≤ 0x46 := by
      rw [hexDigit]
      split <;> omega
    rcases hby with rfl | rfl | rfl <;> omega

/-- C8: the name encoding used for collection directories is a total,
deterministic, injective map from Unicode strings (code points below
`0x110000`) to single-path-segment-safe ASCII strings, and the fallback
decoding of `app.get_original_db_name` recovers the original name:
`unquote (quote n) = some n`. -/
theorem nameCodec_contract (n1 n2 : List Nat)
    (h1 : ∀ c ∈ n1, c < 0x110000) (h2 : ∀ c ∈ n2, c < 0x110000) :
    unquote (quote n1) = some n1 ∧
    (∀ b ∈ quote n1, 0x24 ≤ b ∧ b ≤ 0x7E ∧ b ≠ 0x2F) ∧
    (quote n1 = quote n2 → n1 = n2) := by
  refine ⟨quote_unquote n1 h1, quote_bytes_safe n1 h1, ?_⟩
  intro he
  have e1 := quote_unquote n1 h1
  have e2 := quote_unquote n2 h2
  rw [he] at e1
  exact Option.some.inj (e1.symm.trans e2)

/-- C8 witness: the name `"a/ 日"` (slash, space, non-ASCII) round-trips
through the codec. -/
theorem nameCodec_contract_witness :
    unquote (quote [0x61, 0x2F, 0x20, 0x65E5])
      = some [0x61, 0x2F, 0x20, 0x65E5] :=
  (nameCodec_contract [0x61, 0x2F, 0x20, 0x65E5] [] (by decide) (by decide)).1

/-- C2 witness: three concrete batches added to a fresh store. -/
theorem add_documents_positional_witness :
    (addMany storeC2 batchesC2).xb
      = (([] : List Doc) ++ batchesC2.flatten).map (fun d => d.embedding) ∧
    (addMany storeC2 batchesC2).metadata_list
      = (([] : List Doc) ++ batchesC2.flatten).map docEntry ∧
    (addMany storeC2 batchesC2).xb.length
      = (addMany storeC2 batchesC2).metadata_list.length :=
  add_documents_positional storeC2 [] batchesC2 rfl rfl

end LocalQA
